import Mathlib

/-!
Verification of the HOPS compile-time combinator library (C++ headers under
`include/` and the example programs under `examples/`) against its
natural-language specification.

Arrays `std::array<T, N>` are embedded as functions `Fin N → T` (the map from
each index to the stored value); the template-recursive "combinator" forms
(MapHelper, ReduceHelper, XipHelper, DivconqHelper) become structural
recursion on the length, and the "loop" forms become direct index maps, one
definition per C++ loop.  The example programs (arg-min, streaming insertion
sort, Smith-Waterman) are embedded over `List`/`Int` with the resident
register arrays made explicit state.
-/

namespace HOPS

/-- An array of `n` elements of `α`: the shallow embedding of
`std::array<T, n>` as the function from each index to the stored value. -/
abbrev Arr (α : Type*) (n : Nat) := Fin n → α

/-- `hops::head` (arrayops.hpp): returns `t[0]`. -/
def head {α : Type*} {n : Nat} (a : Arr α (n + 1)) : α := a 0

/-- `hops::tail` (arrayops.hpp): `res[idx] = IN[idx+1]` for `idx < LEN-1`. -/
def tail {α : Type*} {n : Nat} (a : Arr α (n + 1)) : Arr α n :=
  fun i => a i.succ

/-- `hops::prepend` (arrayops.hpp): `res[0] = V` and `res[idx+1] = IN[idx]`. -/
def prepend {α : Type*} {n : Nat} (v : α) (a : Arr α n) : Arr α (n + 1) :=
  Fin.cons v a

/-- `hops::append` (arrayops.hpp): `res[idx] = IN[idx]` and `res[LEN] = V`. -/
def append {α : Type*} {n : Nat} (a : Arr α n) (v : α) : Arr α (n + 1) :=
  fun i => if h : (i : Nat) < n then a ⟨i, h⟩ else v

/-- `hops::concatenate` (arrayops.hpp): `res[idx] = L[idx]` for `idx < LLEN`,
then `res[LLEN + idx] = R[idx]` for `idx < RLEN`. -/
def concatenate {α : Type*} {m k : Nat} (L : Arr α m) (R : Arr α k) :
    Arr α (m + k) :=
  fun i =>
    if h : (i : Nat) < m then L ⟨i, h⟩
    else R ⟨(i : Nat) - m, by have := i.isLt; omega⟩

/-- `hops::split<IDX>` (arrayops.hpp): the first component holds
`IN[0..llen)` with `llen = (IDX > LEN) ? LEN : IDX = min IDX LEN`, the second
holds `IN[llen..LEN)`, of length `rlen = (IDX > LEN) ? 0 : LEN - IDX`. -/
def split (k : Nat) {α : Type*} {n : Nat} (a : Arr α n) :
    Arr α (min k n) × Arr α (n - k) :=
  (fun i => a ⟨i, lt_of_lt_of_le i.isLt (min_le_right k n)⟩,
   fun i => a ⟨min k n + i, by have := i.isLt; omega⟩)

/-- `hops::flip` (functools.hpp): `flip(F)(L, R) = F(R, L)`. -/
def flip {α β γ : Type*} (F : α → β → γ) : β → α → γ := fun L R => F R L

/-- `hops::uncurry` (functools.hpp): `uncurry(F)(P) = F(P.first, P.second)`. -/
def uncurry {α β γ : Type*} (F : α → β → γ) : α × β → γ := fun P => F P.1 P.2

/-- `hops::rrotate` (arrayops.hpp):
`uncurry(flip(concatenate))(split<LEN-1>(IN))`; the `Fin.cast` carries the
arithmetic `(LEN-(LEN-1)) + min (LEN-1) LEN = LEN` that C++ evaluates inside
the result type `std::array<T, LEN>`. -/
def rrotate {α : Type*} {n : Nat} (a : Arr α n) : Arr α n :=
  fun i =>
    uncurry (flip concatenate) (split (n - 1) a)
      (Fin.cast (by omega : n = (n - (n - 1)) + min (n - 1) n) i)

/-- `hops::lrotate` (arrayops.hpp):
`uncurry(flip(concatenate))(split<1>(IN))`, with the same type-level
arithmetic `(LEN-1) + min 1 LEN = LEN`. -/
def lrotate {α : Type*} {n : Nat} (a : Arr α n) : Arr α n :=
  fun i =>
    uncurry (flip concatenate) (split 1 a)
      (Fin.cast (by omega : n = (n - 1) + min 1 n) i)

/-- `hops::MapHelper<LEN>::operator()` (map.hpp): the recursive (combinator)
form of map; `prepend(F(IN[0]), MapHelper<LEN-1>()(F, tail(IN)))`, with the
`LEN = 0` specialization returning the nil array. -/
def mapHelper {α β : Type*} (F : α → β) : {n : Nat} → Arr α n → Arr β n
  | 0, _ => fun i => i.elim0
  | _ + 1, IN => prepend (F (IN 0)) (mapHelper F (tail IN))

/-- `hops::Map::operator()` (map.hpp): dispatches to `MapHelper<LEN>`. -/
def hops_map {α β : Type*} {n : Nat} (F : α → β) (IN : Arr α n) : Arr β n :=
  mapHelper F IN

/-- `hops::loop::Map::operator()` (map.hpp): the loop form of map;
`temp[i] = F(IN[i])` for each `i < LEN`. -/
def loop_map {α β : Type*} {n : Nat} (F : α → β) (IN : Arr α n) : Arr β n :=
  fun i => F (IN i)

/-- `hops::ReduceHelper<LEN>::lreduce` (reduce.hpp):
`lreduce(F, INIT, IN) = ReduceHelper<LEN-1>().lreduce(F, F(INIT, head(IN)), tail(IN))`,
with the `LEN = 0` specialization returning `INIT`. -/
def lreduce {α β : Type*} (F : β → α → β) : β → {n : Nat} → Arr α n → β
  | INIT, 0, _ => INIT
  | INIT, _ + 1, IN => lreduce F (F INIT (head IN)) (tail IN)

/-- `hops::ReduceHelper<LEN>::rreduce` (reduce.hpp):
`rreduce(F, IN, INIT) = F(head(IN), ReduceHelper<LEN-1>().rreduce(F, tail(IN), INIT))`,
with the `LEN = 0` specialization returning `INIT`. -/
def rreduce {α β : Type*} (F : α → β → β) : {n : Nat} → Arr α n → β → β
  | 0, _, INIT => INIT
  | _ + 1, IN, INIT => F (head IN) (rreduce F (tail IN) INIT)

/-- `hops::XipHelper<LEN>::zip` (zip.hpp):
`prepend({L[0], R[0]}, XipHelper<LEN-1>().zip(tail(L), tail(R)))`, with the
`LEN = 0` specialization returning the nil array. -/
def zip {α β : Type*} : {n : Nat} → Arr α n → Arr β n → Arr (α × β) n
  | 0, _, _ => fun i => i.elim0
  | _ + 1, L, R => prepend (L 0, R 0) (zip (tail L) (tail R))

/-- `hops::XipHelper<LEN>::unzip` (zip.hpp): recursively unzips the tail into
`t` and returns `{prepend(IN[0].first, t.first), prepend(IN[0].second, t.second)}`;
the `LEN = 0` specialization returns a pair of nil arrays. -/
def unzip {α β : Type*} : {n : Nat} → Arr (α × β) n → Arr α n × Arr β n
  | 0, _ => (fun i => i.elim0, fun i => i.elim0)
  | _ + 1, IN =>
    let t := unzip (tail IN)
    (prepend (IN 0).1 t.1, prepend (IN 0).2 t.2)

/-- Tail of `check` (examples/utility.hpp) starting at position `i`: the loop
`for(i = 0; i < LEN; ++i){ if(TGT[i] != GOLD[i]) return -(i + 1); } return 0;`
expressed as recursion on the remaining positions. -/
def checkFrom {α : Type*} [DecidableEq α] {n : Nat} (TGT GOLD : Arr α n)
    (i : Nat) : Int :=
  if h : i < n then
    if TGT ⟨i, h⟩ ≠ GOLD ⟨i, h⟩ then -((i : Int) + 1) else checkFrom TGT GOLD (i + 1)
  else 0
termination_by n - i

/-- `check` (examples/utility.hpp): element-by-element comparison of two
equal-length arrays, `0` on success, `-(i+1)` at the first mismatch `i`. -/
def check {α : Type*} [DecidableEq α] {n : Nat} (TGT GOLD : Arr α n) : Int :=
  checkFrom TGT GOLD 0

/-- The sequence of `(index, value)` assignments `temp[idx] = v` performed by
the fill loop of `range<STOP, START, STEP>` (arrayops.hpp):
`for(v = START, idx = 0; v < STOP; v += STEP, ++idx) temp[idx] = v;`.
The `0 < STEP` guard only terminates the model where the C++ loop would not
terminate either; for `STEP ≥ 1` the two agree step for step. -/
def rangeWrites (STOP STEP v idx : Nat) : List (Nat × Nat) :=
  if h : v < STOP ∧ 0 < STEP then
    (idx, v) :: rangeWrites STOP STEP (v + STEP) (idx + 1)
  else []
termination_by STOP - v
decreasing_by omega

/-- Declared length of the array returned by `range<STOP, START, STEP>`
(arrayops.hpp): `(STOP-START)/STEP`. -/
def rangeLen (STOP START STEP : Nat) : Nat := (STOP - START) / STEP

/-! Smith-Waterman cell update (examples/smith_waterman).  Scores are C++
`char` (8-bit signed); `wrap8` models every store or cast to `char`.  The
score record `struct score { char v, e, f; }` and the reference record
`struct sw_ref { hw_base b; bool last; }` become `Score` and `SwRef`, with
the symbol type `hw_base` (a `char`) embedded as `Int`. -/

/-- The per-cell score record `struct score { char v, e, f; }`. -/
structure Score where
  v : Int
  e : Int
  f : Int
deriving DecidableEq

/-- The reference-stream record `struct sw_ref { hw_base b; bool last; }`. -/
structure SwRef where
  b : Int
  last : Bool
deriving DecidableEq

/-- Match bonus `#define MATCH 2` (smith_waterman.hpp). -/
def MATCH : Int := 2

/-- Gap-open penalty `#define ALPHA 2` (smith_waterman.hpp). -/
def ALPHA : Int := 2

/-- Gap-extend penalty `#define BETA 1` (smith_waterman.hpp). -/
def BETA : Int := 1

/-- Row count `#define READ_LENGTH 16` (smith_waterman.hpp). -/
def READ_LENGTH : Nat := 16

/-- Reduction of an integer to the value of the C++ `char` (8-bit two's
complement) holding it: the result lies in `[-128, 128)` and is congruent to
the input mod 256. -/
def wrap8 (x : Int) : Int := (x + 128) % 256 - 128

/-- The interval of values a `char` can hold exactly. -/
def InRange8 (x : Int) : Prop := -128 ≤ x ∧ x < 128

instance (x : Int) : Decidable (InRange8 x) :=
  inferInstanceAs (Decidable (-128 ≤ x ∧ x < 128))

/-- The recursive (fold-based) `SmithWatermanUnit::operator()`
(examples/smith_waterman/test.cpp): the template operator on a sub-matrix of
`IDX` rows, together with its `IDX = 1` base overload returning `{0,0,0}`.
As assembled by the systolic `Wrapper` (systolic.hpp, `prepend(cur.hist,
past.second)`), position 0 of the sub-matrix is the current row's history
window and position 1 is the row above; `IDX` equals `row_index + 1`.
Each window is `SW_HIST = 2` columns, `(most recent, previous)`.
`IDX = 0` is never instantiated by the source; it is mapped to the base
value. -/
def swUnitRec : (IDX : Nat) → Int → SwRef → (Fin IDX → Score × Score) → Score
  | 0, _, _, _ => ⟨0, 0, 0⟩
  | 1, _, _, _ => ⟨0, 0, 0⟩
  | j + 2, read, ref, smatrix =>
    if ref.last then
      ⟨wrap8 (-(j + 2 : Int)), wrap8 (-(j + 2 : Int)), wrap8 (-(j + 2 : Int))⟩
    else
      let sigma : Int := if read = ref.b then MATCH else -MATCH
      let e := wrap8 (max ((smatrix ⟨0, by omega⟩).1.v - ALPHA)
                          ((smatrix ⟨0, by omega⟩).1.e - BETA))
      let f := wrap8 (max ((smatrix ⟨1, by omega⟩).1.v - ALPHA)
                          ((smatrix ⟨1, by omega⟩).1.f - BETA))
      ⟨max (wrap8 ((smatrix ⟨1, by omega⟩).2.v + sigma)) (max e f), e, f⟩

/-- The explicit-loop `SmithWatermanUnit::operator()` taking the runtime row
index (examples/smith_waterman/test.cpp): reads row `IDX` (left window) and
row `IDX - 1` (above/diagonal window) of the full `READ_LENGTH`-row history
matrix.  The final branch is unreachable: `sloop::systolic` only calls it
with `IDX = row < READ_LENGTH`. -/
def swUnitLoop (IDX : Nat) (read : Int) (ref : SwRef)
    (smatrix : Fin READ_LENGTH → Score × Score) : Score :=
  if IDX = 0 then ⟨0, 0, 0⟩
  else if ref.last then
    ⟨wrap8 (-((IDX : Int) + 1)), wrap8 (-((IDX : Int) + 1)), wrap8 (-((IDX : Int) + 1))⟩
  else if h : IDX < READ_LENGTH then
    let sigma : Int := if read = ref.b then MATCH else -MATCH
    let e := wrap8 (max ((smatrix ⟨IDX, h⟩).1.v - ALPHA)
                        ((smatrix ⟨IDX, h⟩).1.e - BETA))
    let f := wrap8 (max ((smatrix ⟨IDX - 1, by omega⟩).1.v - ALPHA)
                        ((smatrix ⟨IDX - 1, by omega⟩).1.f - BETA))
    ⟨max (wrap8 ((smatrix ⟨IDX - 1, by omega⟩).2.v + sigma)) (max e f), e, f⟩
  else ⟨0, 0, 0⟩

/-! Streaming insertion sort (examples/insertion_sort/test.cpp).  A record
`isort_t<int> = std::pair<int, last_t>` is `Int × Bool`; the resident
register array `static std::array<isort_t<int>, 16> arr` (zero-initialized)
is threaded as explicit state `List IsortRec` of length 16. -/

/-- One tagged stream record `{value, boundary-flag}`. -/
abbrev IsortRec := Int × Bool

/-- `MinOp::operator()` (examples/insertion_sort/test.cpp): given the cell
record `me` and the accumulated array `past`, reads `in = head(past)`,
computes `comparison = (me.first < in.first) & !me.second`, and returns
`prepend(bump, prepend(newme, tail(past)))`.  The `[]` case is unreachable:
`rreduce` always passes a nonempty accumulator (it starts from the singleton
`{IN}`). -/
def minOp (me : IsortRec) (past : List IsortRec) : List IsortRec :=
  match past with
  | [] => []
  | inp :: rest =>
    let comparison := decide (me.1 < inp.1) && !me.2
    let bump : IsortRec := (if comparison then inp.1 else me.1, me.2)
    let newme : IsortRec := (if comparison then me.1 else inp.1, inp.2)
    bump :: newme :: rest

/-- `isort_hop_synth` (examples/insertion_sort/test.cpp):
`out = rreduce(minOp, arr, {IN}); arr = tail(out); return head(out);` — the
right fold of `minOp` over the resident array seeded with the singleton
`{IN}`; returns the produced record and the updated resident array. -/
def isortHopStep (arr : List IsortRec) (IN : IsortRec) : IsortRec × List IsortRec :=
  let out := arr.foldr minOp [IN]
  (out.headD (0, false), out.tail)

/-- Body of `isort_loop_synth` (examples/insertion_sort/test.cpp): the
unrolled loop `for(i = LIST_LENGTH-1; i >= 0; --i)` walking the resident
array from its tail toward its head, threading `bump`; expressed as
recursion that processes the cells to the right first. -/
def isortLoopGo : List IsortRec → IsortRec → IsortRec × List IsortRec
  | [], bump => (bump, [])
  | c :: rest, bump =>
    let pr := isortLoopGo rest bump
    let comparison := decide (c.1 < pr.1.1) && !c.2
    let newme : IsortRec := (if comparison then c.1 else pr.1.1, pr.1.2)
    let bump2 : IsortRec := (if comparison then pr.1.1 else c.1, c.2)
    (bump2, newme :: pr.2)

/-- `isort_loop_synth` (examples/insertion_sort/test.cpp): one call of the
loop realization, returning the produced record and the updated array. -/
def isortLoopStep (arr : List IsortRec) (IN : IsortRec) : IsortRec × List IsortRec :=
  isortLoopGo arr IN

/-- The test driver loop of `main` (examples/insertion_sort/test.cpp): feeds
the input records one per call into the given step function, collecting the
returned records in call order. -/
def driveIsort (step : List IsortRec → IsortRec → IsortRec × List IsortRec) :
    List IsortRec → List IsortRec → List IsortRec
  | _, [] => []
  | arr, inp :: rest =>
    let pr := step arr inp
    pr.1 :: driveIsort step pr.2 rest

/-- The input stream `main` builds over calls `i = -1 .. 2*16`:
call `i = -1` feeds `{0, 1}`; calls `i = 0..15` feed `{input[i], 0}`;
call `i = 16` feeds `{input[16], 1}` — `input[16]` is an OUT-OF-BOUNDS read,
modelled by the unconstrained value `g0`; calls `i = 17..32` feed further
out-of-bounds values `gs` with flag `0`. -/
def isortInputs (vs : List Int) (g0 : Int) (gs : List Int) : List IsortRec :=
  ((0 : Int), true) ::
    (vs.map (fun v => (v, false)) ++ (g0, true) :: gs.map (fun v => (v, false)))

/-- The zero-initialized resident register array
`static std::array<isort_t<int>, LIST_LENGTH> arr`. -/
def isortInitArr : List IsortRec := List.replicate 16 ((0 : Int), false)

/-- The 16 values `main` records: `output[i-17] = out.first` for calls
`i = 17..32`, i.e. positions `18..33` of the 34-call sequence. -/
def isortRecorded (step : List IsortRec → IsortRec → IsortRec × List IsortRec)
    (vs : List Int) (g0 : Int) (gs : List Int) : List Int :=
  (((driveIsort step isortInitArr (isortInputs vs g0 gs)).drop 18).take 16).map Prod.fst

/-! Arg-min reduction tree (examples/argminmax/test.cpp).  The record
`argmin_t<int> { int data; std::size_t idx, lev; }` becomes `ArgminT`; the
input `std::array<int, 16>` is modelled by its index-to-value map
`IN : Nat → Int` (both realizations only ever read indices `< 16`). -/

/-- The tree record `argmin_t<int> = { data, idx, lev }`. -/
structure ArgminT where
  data : Int
  idx : Nat
  lev : Nat
deriving DecidableEq

/-- `Argminop::operator()` (examples/argminmax/test.cpp):
`b = R.data < L.data; lev = L.lev;` combined entry
`{ b ? R.data : L.data, ((b & 1) << lev) | (b ? R.idx : L.idx), lev + 1 }`.
Its overload on two singleton arrays applies the same on `L[0]`, `R[0]`. -/
def argminop (L R : ArgminT) : ArgminT :=
  let b : Bool := decide (R.data < L.data)
  ⟨if b then R.data else L.data,
   (b.toNat <<< L.lev) ||| (if b then R.idx else L.idx),
   L.lev + 1⟩

/-- `hops::log2` (arrayops.hpp): `(n <= 2) ? 1 : 1 + log2(n / 2)`. -/
def log2 (n : Nat) : Nat :=
  if n ≤ 2 then 1 else 1 + log2 (n / 2)
termination_by n
decreasing_by omega

/-- `hops::clog2` (arrayops.hpp): `log2(n) + (n > (1 << log2(n)))`. -/
def clog2 (n : Nat) : Nat := log2 n + (if 1 <<< log2 n < n then 1 else 0)

/-- `#define LIST_LENGTH (1<<LOG_LIST_LENGTH)` with `LOG_LIST_LENGTH 4`. -/
def LIST_LENGTH : Nat := 16

/-- The staged table `temp` of `argmin_loop_synth`
(examples/argminmax/test.cpp): `temp[0][idx] = {IN[idx], idx, 0}` and
`temp[lev][idx] = argminop(temp[lev-1][2*idx], temp[lev-1][2*idx+1])`. -/
def argminTable (IN : Nat → Int) : Nat → Nat → ArgminT
  | 0, idx => ⟨IN idx, idx, 0⟩
  | lev + 1, idx =>
    argminop (argminTable IN lev (2 * idx)) (argminTable IN lev (2 * idx + 1))

/-- `argmin_loop_synth` (examples/argminmax/test.cpp): builds the
`LEV = clog2(LIST_LENGTH)` staged table and returns
`{temp[LEV][0].data, temp[LEV][0].idx}`. -/
def argmin_loop_synth (IN : Nat → Int) : Int × Nat :=
  ((argminTable IN (clog2 LIST_LENGTH) 0).data,
   (argminTable IN (clog2 LIST_LENGTH) 0).idx)

/-- `hops::DivconqHelper<LEV>::operator()` (divconq.hpp) over the index map
of an array of `2^LEV` elements: splits at `1 << (LEV-1)`, recurses on both
halves and combines with `F`; the `LEV = 1` base case applies `F` to the two
singleton halves (for `Argminop`, its singleton-array overload unwraps them).
`LEV = 0` is never instantiated by the source (`clog2 ≥ 1`). -/
def divconqHelper {β : Type*} (F : β → β → β) : Nat → (Nat → β) → β
  | 0, a => a 0
  | 1, a => F (a 0) (a 1)
  | lev + 2, a =>
    F (divconqHelper F (lev + 1) a)
      (divconqHelper F (lev + 1) (fun i => a (2 ^ (lev + 1) + i)))

/-- `argmin_hop_synth` (examples/argminmax/test.cpp):
`out = divconq(argminop, map(argmin_t<int>(), IN))` — the divide-and-conquer
combinator at `LEV = clog2(LIST_LENGTH)` over the leaf entries `{IN[i],0,0}`
— returning `{out.data, out.idx}`. -/
def argmin_hop_synth (IN : Nat → Int) : Int × Nat :=
  ((divconqHelper argminop (clog2 LIST_LENGTH) (fun i => ⟨IN i, 0, 0⟩)).data,
   (divconqHelper argminop (clog2 LIST_LENGTH) (fun i => ⟨IN i, 0, 0⟩)).idx)

/-- Reference: the minimum value of a list (0 for the empty list, which never
arises). -/
def minV : List Int → Int
  | [] => 0
  | [x] => x
  | x :: y :: t => min x (minV (y :: t))

/-- Reference: the index of the first occurrence of the minimum. -/
def firstMinIdx : List Int → Nat
  | [] => 0
  | [_] => 0
  | x :: y :: t => if minV (y :: t) < x then firstMinIdx (y :: t) + 1 else 0

/-- The `2^lev` values `g 0, g 1, ..., g (2^lev - 1)` as a list. -/
def blk0 (g : Nat → Int) (lev : Nat) : List Int := (List.range (2 ^ lev)).map g

end HOPS

namespace HOPS

theorem prepend_zero {α : Type*} {n : Nat} (v : α) (a : Arr α n) :
    prepend v a 0 = v := rfl

theorem prepend_succ {α : Type*} {n : Nat} (v : α) (a : Arr α n) (j : Fin n) :
    prepend v a j.succ = a j := by simp [prepend]

theorem tail_prepend {α : Type*} {n : Nat} (v : α) (a : Arr α n) :
    tail (prepend v a) = a := by
  funext i; simp [tail, prepend]

theorem zip_succ_def {α β : Type*} {n : Nat} (L : Arr α (n + 1)) (R : Arr β (n + 1)) :
    zip L R = prepend (L 0, R 0) (zip (tail L) (tail R)) := rfl

theorem unzip_succ_def {α β : Type*} {n : Nat} (IN : Arr (α × β) (n + 1)) :
    unzip IN = (prepend (IN 0).1 (unzip (tail IN)).1,
                prepend (IN 0).2 (unzip (tail IN)).2) := rfl

theorem zip_of_unzip {α β : Type*} :
    ∀ {n : Nat} (P : Arr (α × β) n), zip (unzip P).1 (unzip P).2 = P := by
  intro n
  induction n with
  | zero => intro P; funext i; exact i.elim0
  | succ n ih =>
    intro P
    funext i
    induction i using Fin.cases with
    | zero =>
      rw [unzip_succ_def, zip_succ_def]
      simp [prepend_zero]
    | succ j =>
      rw [unzip_succ_def, zip_succ_def]
      rw [show (∀ x y, prepend (x, y)
            (zip (tail (prepend (P 0).1 (unzip (tail P)).1))
                 (tail (prepend (P 0).2 (unzip (tail P)).2))) j.succ =
            (zip (unzip (tail P)).1 (unzip (tail P)).2) j) from
        fun x y => by rw [tail_prepend, tail_prepend, prepend_succ]]
      rw [ih (tail P)]
      rfl

theorem unzip_of_zip {α β : Type*} :
    ∀ {n : Nat} (L : Arr α n) (R : Arr β n), unzip (zip L R) = (L, R) := by
  intro n
  induction n with
  | zero =>
    intro L R
    refine Prod.ext (funext fun i => i.elim0) (funext fun i => i.elim0)
  | succ n ih =>
    intro L R
    rw [zip_succ_def, unzip_succ_def, tail_prepend, ih (tail L) (tail R)]
    refine Prod.ext ?_ ?_ <;>
      · funext i
        induction i using Fin.cases with
        | zero => simp [prepend_zero]
        | succ j => simp [prepend_succ, tail]

/-- C1: the recursive (combinator) form and the loop form of `map` return
identical output arrays, each of the same (type-level) length as `IN`, with
element `i` equal to `F` applied to `IN`'s element `i`. -/
theorem map_rec_eq_loop {α β : Type*} :
    ∀ (n : Nat) (F : α → β) (IN : Arr α n),
      hops_map F IN = loop_map F IN ∧ ∀ i : Fin n, hops_map F IN i = F (IN i) := by
  intro n
  induction n with
  | zero =>
    intro F IN
    refine ⟨funext fun i => i.elim0, fun i => i.elim0⟩
  | succ n ih =>
    intro F IN
    have hfun : hops_map F IN = loop_map F IN := by
      funext i
      induction i using Fin.cases with
      | zero =>
        simp [hops_map, mapHelper, prepend, loop_map]
      | succ j =>
        have := (ih F (tail IN)).2 j
        simpa [hops_map, mapHelper, prepend, loop_map, tail] using this
    exact ⟨hfun, fun i => by rw [hfun]; rfl⟩

/-- C5: the defining behavior of `lreduce` and `rreduce`: on a length-0 array
each returns `INIT`; on a nonempty array, `lreduce F INIT a` recurses as
`lreduce F (F INIT (head a)) (tail a)` and `rreduce F a INIT` returns
`F (head a) (rreduce F (tail a) INIT)`.  The accumulator type `β` is
independent of the element type `α`. -/
theorem reduce_defining_equations {α β : Type*} :
    ∀ (F : β → α → β) (G : α → β → β) (INIT : β) (n : Nat)
      (a : Arr α 0) (b : Arr α (n + 1)),
      lreduce F INIT a = INIT ∧
      lreduce F INIT b = lreduce F (F INIT (head b)) (tail b) ∧
      rreduce G a INIT = INIT ∧
      rreduce G b INIT = G (head b) (rreduce G (tail b) INIT) := by
  intro F G INIT n a b
  exact ⟨rfl, rfl, rfl, rfl⟩

/-- C7: zipping the pair of arrays produced by `unzip P` reproduces `P`
element-for-element, and `unzip (zip L R)` returns the pair `(L, R)`, for
every array of pairs `P` and equal-length arrays `L`, `R`. -/
theorem zip_unzip_mutual_inverse {α β : Type*} :
    ∀ (n : Nat) (P : Arr (α × β) n) (L : Arr α n) (R : Arr β n),
      zip (unzip P).1 (unzip P).2 = P ∧ unzip (zip L R) = (L, R) :=
  fun _ P L R => ⟨zip_of_unzip P, unzip_of_zip L R⟩

/-- C6: `split k` produces arrays of (type-level) lengths `min k n` and
`n - k` (Nat subtraction, i.e. `max (n-k) 0`); the first holds the elements
at indices `[0, k)`, the second those at `[k, n)`; and concatenating the two
pieces yields the original array at every index. -/
theorem split_concatenate_id {α : Type*} :
    ∀ (n k : Nat) (a : Arr α n),
      (∀ i : Fin (min k n), (split k a).1 i = a ⟨i, lt_of_lt_of_le i.isLt (min_le_right k n)⟩) ∧
      (∀ i : Fin (n - k), (split k a).2 i = a ⟨k + i, by have := i.isLt; omega⟩) ∧
      (∀ i : Fin n,
        concatenate (split k a).1 (split k a).2
          (Fin.cast (by omega : n = min k n + (n - k)) i) = a i) := by
  intro n k a
  refine ⟨fun i => rfl, fun i => ?_, fun i => ?_⟩
  · exact congrArg a (Fin.ext (by have := i.isLt; simp only []; omega))
  · simp only [concatenate, split]
    by_cases h : ((i : Nat) < min k n)
    · rw [dif_pos (show ((Fin.cast (by omega : n = min k n + (n - k)) i : Fin (min k n + (n - k))) : Nat) < min k n from h)]
      exact congrArg a (Fin.ext rfl)
    · rw [dif_neg (show ¬ ((Fin.cast (by omega : n = min k n + (n - k)) i : Fin (min k n + (n - k))) : Nat) < min k n from h)]
      exact congrArg a (Fin.ext (by have := i.isLt; simp only [Fin.coe_cast]; omega))

/-- C10: for every nonempty array, the one-position right rotation and the
one-position left rotation are mutual inverses. -/
theorem rotate_mutual_inverse {α : Type*} :
    ∀ (n : Nat) (a : Arr α n), 0 < n →
      lrotate (rrotate a) = a ∧ rrotate (lrotate a) = a := by
  intro n a hn
  constructor <;>
    · funext i
      simp only [lrotate, rrotate, uncurry, flip, concatenate, split, Fin.coe_cast]
      split_ifs <;>
        · apply congrArg a
          apply Fin.ext
          simp only [Fin.coe_cast] at *
          omega

theorem checkFrom_eq_zero {α : Type*} [DecidableEq α] {n : Nat}
    (TGT GOLD : Arr α n) :
    ∀ m k, n - k ≤ m → (∀ j : Fin n, k ≤ (j : Nat) → TGT j = GOLD j) →
      checkFrom TGT GOLD k = 0 := by
  intro m
  induction m with
  | zero =>
    intro k hm _
    rw [checkFrom, dif_neg (by omega)]
  | succ m ih =>
    intro k hm h
    rw [checkFrom]
    by_cases hk : k < n
    · rw [dif_pos hk]
      have heq : TGT ⟨k, hk⟩ = GOLD ⟨k, hk⟩ := h ⟨k, hk⟩ (le_refl k)
      rw [if_neg (not_not_intro heq)]
      exact ih (k + 1) (by omega) (fun j hj => h j (by omega))
    · rw [dif_neg hk]

theorem checkFrom_first_mismatch {α : Type*} [DecidableEq α] {n : Nat}
    (TGT GOLD : Arr α n) :
    ∀ m k (i : Fin n), n - k ≤ m → k ≤ (i : Nat) → TGT i ≠ GOLD i →
      (∀ j : Fin n, k ≤ (j : Nat) → (j : Nat) < (i : Nat) → TGT j = GOLD j) →
      checkFrom TGT GOLD k = -((i : Nat) + 1) := by
  intro m
  induction m with
  | zero =>
    intro k i hm hk _ _
    exfalso
    have := i.isLt
    omega
  | succ m ih =>
    intro k i hm hk hne hpre
    have hkn : k < n := lt_of_le_of_lt hk i.isLt
    rw [checkFrom, dif_pos hkn]
    by_cases hmis : TGT ⟨k, hkn⟩ ≠ GOLD ⟨k, hkn⟩
    · rw [if_pos hmis]
      have hkeq : k = (i : Nat) := by
        by_contra hne2
        exact hmis (hpre ⟨k, hkn⟩ (le_refl k) (by show k < (i : Nat); omega))
      simp [hkeq]
    · rw [if_neg hmis]
      have heqk : TGT ⟨k, hkn⟩ = GOLD ⟨k, hkn⟩ := not_not.mp hmis
      have hki : k ≠ (i : Nat) := by
        intro hkeq
        apply hne
        have hfin : (⟨k, hkn⟩ : Fin n) = i := Fin.ext hkeq
        rw [← hfin]
        exact heqk
      exact ih (k + 1) i (by omega) (by omega) hne
        (fun j h1 h2 => hpre j (by omega) h2)

/-- C8: `check(target, gold)` returns `0` when every pair of corresponding
elements is equal, and otherwise `-(i+1)` where `i` is the index of the first
pair of unequal elements.  (The embedding is a pure function of its two
arguments, so it modifies neither array and has no other effect.) -/
theorem check_first_mismatch_spec {α : Type*} [DecidableEq α] :
    ∀ (n : Nat) (TGT GOLD : Arr α n),
      ((∀ i : Fin n, TGT i = GOLD i) → check TGT GOLD = 0) ∧
      (∀ i : Fin n, TGT i ≠ GOLD i →
        (∀ j : Fin n, (j : Nat) < (i : Nat) → TGT j = GOLD j) →
        check TGT GOLD = -((i : Nat) + 1)) := by
  intro n TGT GOLD
  constructor
  · intro h
    exact checkFrom_eq_zero TGT GOLD n 0 (by omega) (fun j _ => h j)
  · intro i hne hpre
    exact checkFrom_first_mismatch TGT GOLD n 0 i (by omega) (by omega) hne
      (fun j _ h2 => hpre j h2)

/-- Witness for C8: equal arrays give 0; first mismatch at index 1 gives -2. -/
theorem check_first_mismatch_witness :
    check (fun i : Fin 2 => (i : Nat)) (fun i : Fin 2 => (i : Nat)) = 0 ∧
    check (fun i : Fin 2 => (i : Nat)) (fun _ : Fin 2 => 0) = -2 := by
  constructor
  · exact (check_first_mismatch_spec 2 _ _).1 (fun i => rfl)
  · have h := (check_first_mismatch_spec 2 (fun i : Fin 2 => (i : Nat))
      (fun _ : Fin 2 => 0)).2 1 (by decide) (by decide)
    simpa using h

theorem rangeWrites_length_mem (STOP STEP : Nat) (hS : 0 < STEP) :
    ∀ m v idx, STOP - v ≤ m →
      (rangeWrites STOP STEP v idx).length = (STOP - v + STEP - 1) / STEP ∧
      (∀ p ∈ rangeWrites STOP STEP v idx,
        idx ≤ p.1 ∧ p.1 < idx + (STOP - v + STEP - 1) / STEP) := by
  intro m
  induction m with
  | zero =>
    intro v idx hm
    rw [rangeWrites, dif_neg (by omega)]
    constructor
    · rw [show STOP - v + STEP - 1 = STEP - 1 from by omega,
          Nat.div_eq_of_lt (by omega)]
      rfl
    · intro p hp
      exact absurd hp (List.not_mem_nil p)
  | succ m ih =>
    intro v idx hm
    by_cases hv : v < STOP
    · rw [rangeWrites, dif_pos ⟨hv, hS⟩]
      obtain ⟨ihlen, ihmem⟩ := ih (v + STEP) (idx + 1) (by omega)
      have harith : (STOP - v + STEP - 1) / STEP
          = (STOP - (v + STEP) + STEP - 1) / STEP + 1 := by
        rw [show STOP - v + STEP - 1 = (STOP - v - 1) + STEP from by omega,
            Nat.add_div_right _ hS]
        congr 1
        by_cases hd : STOP - v ≤ STEP
        · rw [show STOP - (v + STEP) + STEP - 1 = STEP - 1 from by omega,
              Nat.div_eq_of_lt (by omega), Nat.div_eq_of_lt (by omega)]
        · congr 1
          omega
      constructor
      · simp only [List.length_cons, ihlen]
        omega
      · intro p hp
        rcases List.mem_cons.mp hp with hp | hp
        · subst hp
          refine ⟨le_refl idx, ?_⟩
          rw [harith]
          omega
        · obtain ⟨h1, h2⟩ := ihmem p hp
          rw [harith]
          omega
    · rw [rangeWrites, dif_neg (by omega)]
      constructor
      · rw [show STOP - v + STEP - 1 = STEP - 1 from by omega,
            Nat.div_eq_of_lt (by omega)]
        rfl
      · intro p hp
        exact absurd hp (List.not_mem_nil p)

/-- C9 (amended): for `START ≤ STOP` and `STEP ≥ 1` the fill loop of
`range<STOP, START, STEP>` performs exactly `⌈(STOP-START)/STEP⌉` assignments
(at indices `0 .. count-1`); when `STEP` divides `STOP-START` — in particular
for `STEP = 1` — this equals the declared array length `(STOP-START)/STEP`,
so every write is in bounds. -/
theorem range_fill_assignments :
    ∀ STOP START STEP : Nat, START ≤ STOP → 1 ≤ STEP →
      (rangeWrites STOP STEP START 0).length = (STOP - START + STEP - 1) / STEP ∧
      (∀ p ∈ rangeWrites STOP STEP START 0,
        p.1 < (STOP - START + STEP - 1) / STEP) ∧
      ((STOP - START) % STEP = 0 →
        ∀ p ∈ rangeWrites STOP STEP START 0, p.1 < rangeLen STOP START STEP) := by
  intro STOP START STEP h1 hS
  obtain ⟨hlen, hmem⟩ := rangeWrites_length_mem STOP STEP hS (STOP - START) START 0
    (le_refl _)
  refine ⟨hlen, fun p hp => by have := (hmem p hp).2; omega, ?_⟩
  intro hdvd
  obtain ⟨q, hq⟩ : ∃ q, STOP - START = STEP * q :=
    ⟨(STOP - START) / STEP, by have := Nat.div_add_mod (STOP - START) STEP; omega⟩
  have hfloor : (STOP - START) / STEP = q := by
    rw [hq, Nat.mul_div_cancel_left q hS]
  have hceil : (STOP - START + STEP - 1) / STEP = q := by
    rw [hq, Nat.add_sub_assoc (show 1 ≤ STEP from hS), Nat.mul_add_div hS,
        Nat.div_eq_of_lt (show STEP - 1 < STEP from by omega)]
    exact Nat.add_zero q
  intro p hp
  have h2 := (hmem p hp).2
  rw [hceil] at h2
  rw [rangeLen, hfloor]
  omega

/-- Witness for C9 at `STOP = 5, START = 0, STEP = 2`. -/
theorem range_fill_assignments_witness :
    (rangeWrites 5 2 0 0).length = (5 - 0 + 2 - 1) / 2 ∧
    (∀ p ∈ rangeWrites 5 2 0 0, p.1 < (5 - 0 + 2 - 1) / 2) ∧
    ((5 - 0) % 2 = 0 → ∀ p ∈ rangeWrites 5 2 0 0, p.1 < rangeLen 5 0 2) :=
  range_fill_assignments 5 0 2 (by omega) (by omega)

/-- C9 counterexample: at `STOP = 5, START = 0, STEP = 2` the loop performs 3
assignments (at indices 0, 1, 2), not `(STOP-START)/STEP = 2`, and the write
at index 2 is outside the declared array length 2. -/
theorem range_claim_counterexample :
    ¬ ((rangeWrites 5 2 0 0).length = rangeLen 5 0 2 ∧
       ∀ p ∈ rangeWrites 5 2 0 0, p.1 < rangeLen 5 0 2) := by
  have hW : rangeWrites 5 2 0 0 = [(0, 0), (1, 2), (2, 4)] := by
    rw [rangeWrites, dif_pos (by omega), rangeWrites, dif_pos (by omega),
        rangeWrites, dif_pos (by omega), rangeWrites, dif_neg (by omega)]
  rw [hW]
  decide

theorem wrap8_eq_self (x : Int) (h : InRange8 x) : wrap8 x = x := by
  obtain ⟨h1, h2⟩ := h
  unfold wrap8
  rw [Int.emod_eq_of_lt (by omega) (by omega)]
  omega

/-- C4: in both Smith-Waterman cell-update realizations, every non-boundary
update computes `e = max(v_left - ALPHA, e_left - BETA)`,
`f = max(v_above - ALPHA, f_above - BETA)` and `v = max(v_diag + σ, e, f)`
with `σ = MATCH` exactly when the read symbol equals the reference symbol and
`-MATCH` otherwise — `v` is exactly that maximum, so it is not clamped at 0 —
and when `ref.last` is set the update forces `v = e = f = -(row_index + 1)`.
In the fold-based operator the row's own window sits at position 0 of its
sub-matrix and the row above at position 1 (`row_index = j + 1`); in the loop
operator they sit at positions `IDX` and `IDX - 1` (`row_index = IDX`).  The
`InRange8` hypotheses state that the operands fit in the C++ `char` scores,
under which every store is exact. -/
theorem sw_cell_update :
    ∀ (read : Int) (ref : SwRef),
      (∀ (j : Nat) (sm : Fin (j + 2) → Score × Score),
        ref.last = false →
        InRange8 (max ((sm ⟨0, by omega⟩).1.v - ALPHA) ((sm ⟨0, by omega⟩).1.e - BETA)) →
        InRange8 (max ((sm ⟨1, by omega⟩).1.v - ALPHA) ((sm ⟨1, by omega⟩).1.f - BETA)) →
        InRange8 ((sm ⟨1, by omega⟩).2.v + (if read = ref.b then MATCH else -MATCH)) →
        swUnitRec (j + 2) read ref sm =
          ⟨max ((sm ⟨1, by omega⟩).2.v + (if read = ref.b then MATCH else -MATCH))
               (max (max ((sm ⟨0, by omega⟩).1.v - ALPHA) ((sm ⟨0, by omega⟩).1.e - BETA))
                    (max ((sm ⟨1, by omega⟩).1.v - ALPHA) ((sm ⟨1, by omega⟩).1.f - BETA))),
           max ((sm ⟨0, by omega⟩).1.v - ALPHA) ((sm ⟨0, by omega⟩).1.e - BETA),
           max ((sm ⟨1, by omega⟩).1.v - ALPHA) ((sm ⟨1, by omega⟩).1.f - BETA)⟩) ∧
      (∀ (j : Nat) (sm : Fin (j + 2) → Score × Score),
        ref.last = true → (j : Int) + 2 ≤ 128 →
        swUnitRec (j + 2) read ref sm =
          ⟨-((j : Int) + 2), -((j : Int) + 2), -((j : Int) + 2)⟩) ∧
      (∀ (IDX : Nat) (h1 : 1 ≤ IDX) (h2 : IDX < READ_LENGTH)
         (sm : Fin READ_LENGTH → Score × Score),
        ref.last = false →
        InRange8 (max ((sm ⟨IDX, h2⟩).1.v - ALPHA) ((sm ⟨IDX, h2⟩).1.e - BETA)) →
        InRange8 (max ((sm ⟨IDX - 1, by omega⟩).1.v - ALPHA)
                      ((sm ⟨IDX - 1, by omega⟩).1.f - BETA)) →
        InRange8 ((sm ⟨IDX - 1, by omega⟩).2.v + (if read = ref.b then MATCH else -MATCH)) →
        swUnitLoop IDX read ref sm =
          ⟨max ((sm ⟨IDX - 1, by omega⟩).2.v + (if read = ref.b then MATCH else -MATCH))
               (max (max ((sm ⟨IDX, h2⟩).1.v - ALPHA) ((sm ⟨IDX, h2⟩).1.e - BETA))
                    (max ((sm ⟨IDX - 1, by omega⟩).1.v - ALPHA)
                         ((sm ⟨IDX - 1, by omega⟩).1.f - BETA))),
           max ((sm ⟨IDX, h2⟩).1.v - ALPHA) ((sm ⟨IDX, h2⟩).1.e - BETA),
           max ((sm ⟨IDX - 1, by omega⟩).1.v - ALPHA)
               ((sm ⟨IDX - 1, by omega⟩).1.f - BETA)⟩) ∧
      (∀ (IDX : Nat), 1 ≤ IDX → IDX < READ_LENGTH →
        ∀ sm : Fin READ_LENGTH → Score × Score,
        ref.last = true →
        swUnitLoop IDX read ref sm =
          ⟨-((IDX : Int) + 1), -((IDX : Int) + 1), -((IDX : Int) + 1)⟩) := by
  intro read ref
  refine ⟨?_, ?_, ?_, ?_⟩
  · intro j sm hlast hr1 hr2 hr3
    simp only [swUnitRec]
    rw [if_neg (show ¬(ref.last = true) from by rw [hlast]; exact Bool.false_ne_true)]
    try dsimp only
    rw [wrap8_eq_self _ hr1, wrap8_eq_self _ hr2, wrap8_eq_self _ hr3]
  · intro j sm hlast hle
    simp only [swUnitRec]
    rw [if_pos hlast]
    rw [wrap8_eq_self _ ⟨by omega, by omega⟩]
  · intro IDX h1 h2 sm hlast hr1 hr2 hr3
    simp only [swUnitLoop]
    rw [if_neg (show ¬(IDX = 0) from by omega),
        if_neg (show ¬(ref.last = true) from by rw [hlast]; exact Bool.false_ne_true),
        dif_pos h2]
    try dsimp only
    rw [wrap8_eq_self _ hr1, wrap8_eq_self _ hr2, wrap8_eq_self _ hr3]
  · intro IDX h1 h2 sm hlast
    simp only [swUnitLoop]
    rw [if_neg (show ¬(IDX = 0) from by omega), if_pos hlast]
    rw [wrap8_eq_self _ ⟨by unfold READ_LENGTH at h2; omega, by unfold READ_LENGTH at h2; omega⟩]

/-- Witness for C4: a mismatch update over an all-zero window yields
`v = e = f = -1` (in particular a negative, unclamped `v`), and boundary
updates at row 1 force `-2`, in both realizations. -/
theorem sw_cell_update_witness :
    swUnitRec 2 0 ⟨1, false⟩ (fun _ => (⟨0, 0, 0⟩, ⟨0, 0, 0⟩)) = ⟨-1, -1, -1⟩ ∧
    swUnitRec 2 0 ⟨1, true⟩ (fun _ => (⟨0, 0, 0⟩, ⟨0, 0, 0⟩)) = ⟨-2, -2, -2⟩ ∧
    swUnitLoop 1 0 ⟨1, false⟩ (fun _ => (⟨0, 0, 0⟩, ⟨0, 0, 0⟩)) = ⟨-1, -1, -1⟩ ∧
    swUnitLoop 1 0 ⟨1, true⟩ (fun _ => (⟨0, 0, 0⟩, ⟨0, 0, 0⟩)) = ⟨-2, -2, -2⟩ := by
  refine ⟨?_, ?_, ?_, ?_⟩
  · exact ((sw_cell_update 0 ⟨1, false⟩).1 0 (fun _ => (⟨0, 0, 0⟩, ⟨0, 0, 0⟩))
      rfl (by decide) (by decide) (by decide)).trans (by decide)
  · exact (((sw_cell_update 0 ⟨1, true⟩).2.1) 0 (fun _ => (⟨0, 0, 0⟩, ⟨0, 0, 0⟩))
      rfl (by decide)).trans (by decide)
  · exact (((sw_cell_update 0 ⟨1, false⟩).2.2.1) 1 (by decide) (by decide)
      (fun _ => (⟨0, 0, 0⟩, ⟨0, 0, 0⟩)) rfl (by decide) (by decide) (by decide)).trans
      (by decide)
  · exact (((sw_cell_update 0 ⟨1, true⟩).2.2.2) 1 (by decide) (by decide)
      (fun _ => (⟨0, 0, 0⟩, ⟨0, 0, 0⟩)) rfl).trans (by decide)

theorem foldr_minOp_length (IN : IsortRec) :
    ∀ arr : List IsortRec, (arr.foldr minOp [IN]).length = arr.length + 1 := by
  intro arr
  induction arr with
  | nil => rfl
  | cons c rest ih =>
    simp only [List.foldr_cons]
    cases hsub : rest.foldr minOp [IN] with
    | nil => rw [hsub] at ih; simp at ih
    | cons inp rrest =>
      rw [hsub] at ih
      simp only [minOp, List.length_cons] at ih ⊢
      omega

/-- The loop realization computes exactly the head and tail of the right fold
of `minOp`: both insertion-sort step functions are the same state
transformer. -/
theorem isort_forms_agree :
    ∀ (arr : List IsortRec) (IN : IsortRec),
      isortLoopStep arr IN = isortHopStep arr IN := by
  have hgo : ∀ (arr : List IsortRec) (IN : IsortRec),
      isortLoopGo arr IN
        = ((arr.foldr minOp [IN]).headD (0, false), (arr.foldr minOp [IN]).tail) := by
    intro arr IN
    induction arr with
    | nil => rfl
    | cons c rest ih =>
      have hlen := foldr_minOp_length IN rest
      simp only [isortLoopGo, ih, List.foldr_cons]
      cases hsub : rest.foldr minOp [IN] with
      | nil => rw [hsub] at hlen; simp at hlen
      | cons inp rrest => simp [minOp, hsub]
  intro arr IN
  rw [isortLoopStep, hgo arr IN]
  rfl

set_option maxRecDepth 40000 in
/-- C3: evaluation of both streaming insertion-sort realizations on the
16-element input `1..16` under the harness protocol of `main`.  The value
fed together with the end-of-batch boundary tag at call `i = 16` is the
out-of-bounds read `input[16]`; when that value (here 0) is smaller than the
array maximum it enters the resident buffer and evicts the maximum, so the
read-back starting at cycle 17 is `[15,...,1,0]`, not the descending sort
`[16,...,1]`; when it is at least the maximum (here 17) the read-back is the
descending sort.  Both realizations agree throughout. -/
theorem isort_boundary_value_leak :
    isortRecorded isortHopStep [1, 2, 3, 4, 5, 6, 7, 8, 9, 10, 11, 12, 13, 14, 15, 16]
        0 (List.replicate 16 0)
      = [15, 14, 13, 12, 11, 10, 9, 8, 7, 6, 5, 4, 3, 2, 1, 0] ∧
    isortRecorded isortLoopStep [1, 2, 3, 4, 5, 6, 7, 8, 9, 10, 11, 12, 13, 14, 15, 16]
        0 (List.replicate 16 0)
      = [15, 14, 13, 12, 11, 10, 9, 8, 7, 6, 5, 4, 3, 2, 1, 0] ∧
    isortRecorded isortHopStep [1, 2, 3, 4, 5, 6, 7, 8, 9, 10, 11, 12, 13, 14, 15, 16]
        17 (List.replicate 16 0)
      = [16, 15, 14, 13, 12, 11, 10, 9, 8, 7, 6, 5, 4, 3, 2, 1] ∧
    isortRecorded isortLoopStep [1, 2, 3, 4, 5, 6, 7, 8, 9, 10, 11, 12, 13, 14, 15, 16]
        17 (List.replicate 16 0)
      = [16, 15, 14, 13, 12, 11, 10, 9, 8, 7, 6, 5, 4, 3, 2, 1] ∧
    ([15, 14, 13, 12, 11, 10, 9, 8, 7, 6, 5, 4, 3, 2, 1, 0] : List Int)
      ≠ [16, 15, 14, 13, 12, 11, 10, 9, 8, 7, 6, 5, 4, 3, 2, 1] := by
  refine ⟨by decide, by decide, by decide, by decide, by decide⟩

/-- Witness for C10 at the concrete 3-element array `fun i => i`. -/
theorem rotate_mutual_inverse_witness :
    0 < 3 ∧ (lrotate (rrotate (fun i : Fin 3 => (i : Nat))) = (fun i : Fin 3 => (i : Nat)) ∧
             rrotate (lrotate (fun i : Fin 3 => (i : Nat))) = (fun i : Fin 3 => (i : Nat))) :=
  ⟨by decide, rotate_mutual_inverse 3 (fun i : Fin 3 => (i : Nat)) (by decide)⟩

theorem two_pow_lor_of_testBit {n x : Nat} (h : x.testBit n = true) :
    2 ^ n ||| x = x := by
  apply Nat.eq_of_testBit_eq
  intro i
  rw [Nat.testBit_or, Nat.testBit_two_pow]
  by_cases hni : n = i
  · subst hni
    simp [h]
  · simp [hni]

theorem two_pow_lor_add {n x : Nat} (h : x < 2 ^ n) : 2 ^ n ||| x = 2 ^ n + x := by
  apply Nat.eq_of_testBit_eq
  intro i
  rw [Nat.testBit_or, Nat.testBit_two_pow,
      show 2 ^ n + x = 2 ^ n * 1 + x from by ring,
      Nat.testBit_mul_pow_two_add 1 h i]
  rcases Nat.lt_trichotomy i n with hc | hc | hc
  · simp [hc, Nat.ne_of_gt hc]
  · subst hc
    simp [Nat.testBit_one_zero]
  · have h1 : x.testBit i = false :=
      Nat.testBit_lt_two_pow
        (lt_of_lt_of_le h (Nat.pow_le_pow_right (by omega) (by omega)))
    have h2 : Nat.testBit 1 (i - n) = false :=
      Nat.testBit_lt_two_pow (Nat.one_lt_two_pow (by omega))
    simp [Nat.ne_of_lt hc, if_neg (by omega : ¬ i < n), h1, h2]

theorem testBit_odd_mul_two_pow_add {n q r : Nat} (h : r < 2 ^ n) :
    ((2 * q + 1) * 2 ^ n + r).testBit n = true := by
  rw [show (2 * q + 1) * 2 ^ n + r = 2 ^ n * (2 * q + 1) + r from by ring,
      Nat.testBit_mul_pow_two_add (2 * q + 1) h n]
  simp [Nat.mul_add_mod]

theorem minV_cons (x : Int) (l : List Int) (h : l ≠ []) :
    minV (x :: l) = min x (minV l) := by
  cases l with
  | nil => exact absurd rfl h
  | cons y t => rfl

theorem firstMinIdx_cons (x : Int) (l : List Int) (h : l ≠ []) :
    firstMinIdx (x :: l) = if minV l < x then firstMinIdx l + 1 else 0 := by
  cases l with
  | nil => exact absurd rfl h
  | cons y t => rfl

theorem firstMinIdx_lt_length : ∀ l : List Int, l ≠ [] → firstMinIdx l < l.length := by
  intro l
  induction l with
  | nil => intro h; exact absurd rfl h
  | cons x t ih =>
    intro _
    cases t with
    | nil => simp [firstMinIdx]
    | cons y s =>
      rw [firstMinIdx_cons x (y :: s) (by simp)]
      have := ih (by simp)
      split_ifs <;> simp only [List.length_cons] at * <;> omega

theorem minV_append : ∀ (l r : List Int), l ≠ [] → r ≠ [] →
    minV (l ++ r) = min (minV l) (minV r) := by
  intro l
  induction l with
  | nil => intro r h; exact absurd rfl h
  | cons x t ih =>
    intro r _ hr
    cases t with
    | nil =>
      rw [List.cons_append, List.nil_append, minV_cons x r hr]
      rfl
    | cons y s =>
      rw [List.cons_append, minV_cons x ((y :: s) ++ r) (by simp),
          ih r (by simp) hr, minV_cons x (y :: s) (by simp), min_assoc]

theorem firstMinIdx_append : ∀ (l r : List Int), l ≠ [] → r ≠ [] →
    firstMinIdx (l ++ r)
      = if minV r < minV l then l.length + firstMinIdx r else firstMinIdx l := by
  intro l
  induction l with
  | nil => intro r h; exact absurd rfl h
  | cons x t ih =>
    intro r _ hr
    cases t with
    | nil =>
      rw [List.cons_append, List.nil_append, firstMinIdx_cons x r hr]
      simp only [minV, List.length_cons, List.length_nil, firstMinIdx]
      split_ifs <;> omega
    | cons y s =>
      rw [List.cons_append, firstMinIdx_cons x ((y :: s) ++ r) (by simp),
          ih r (by simp) hr, minV_append (y :: s) r (by simp) hr,
          firstMinIdx_cons x (y :: s) (by simp), minV_cons x (y :: s) (by simp)]
      simp only [List.length_cons, List.length_append]
      rcases lt_trichotomy (minV r) (minV (y :: s)) with hc | hc | hc <;>
        split_ifs <;> simp [min_def] at * <;> omega

theorem blk0_length (g : Nat → Int) (lev : Nat) : (blk0 g lev).length = 2 ^ lev := by
  simp [blk0]

theorem blk0_ne_nil (g : Nat → Int) (lev : Nat) : blk0 g lev ≠ [] :=
  List.ne_nil_of_length_pos (by rw [blk0_length]; exact Nat.two_pow_pos lev)

theorem blk0_split (g : Nat → Int) (lev : Nat) :
    blk0 g (lev + 1) = blk0 g lev ++ blk0 (fun i => g (2 ^ lev + i)) lev := by
  unfold blk0
  rw [show 2 ^ (lev + 1) = 2 ^ lev + 2 ^ lev from by ring, List.range_add,
      List.map_append, List.map_map]
  rfl

theorem argminop_eq (L R : ArgminT) :
    argminop L R = if R.data < L.data
      then ⟨R.data, (1 <<< L.lev) ||| R.idx, L.lev + 1⟩
      else ⟨L.data, (0 <<< L.lev) ||| L.idx, L.lev + 1⟩ := by
  unfold argminop
  by_cases hb : R.data < L.data
  · simp [hb]
  · simp [hb]

theorem argminop_hop_combine (lev : Nat) (l r : List Int)
    (hl : l.length = 2 ^ lev) (hr : r.length = 2 ^ lev) :
    argminop ⟨minV l, firstMinIdx l, lev⟩ ⟨minV r, firstMinIdx r, lev⟩
      = ⟨minV (l ++ r), firstMinIdx (l ++ r), lev + 1⟩ := by
  have hlne : l ≠ [] := List.ne_nil_of_length_pos (by rw [hl]; exact Nat.two_pow_pos lev)
  have hrne : r ≠ [] := List.ne_nil_of_length_pos (by rw [hr]; exact Nat.two_pow_pos lev)
  have hfr : firstMinIdx r < 2 ^ lev := hr ▸ firstMinIdx_lt_length r hrne
  rw [minV_append l r hlne hrne, firstMinIdx_append l r hlne hrne, argminop_eq]
  by_cases hb : minV r < minV l
  · rw [if_pos hb, if_pos hb]
    simp only [ArgminT.mk.injEq]
    refine ⟨(min_eq_right (le_of_lt hb)).symm, ?_, trivial⟩
    rw [Nat.shiftLeft_eq, one_mul, two_pow_lor_add hfr, hl]
  · rw [if_neg hb, if_neg hb]
    simp only [ArgminT.mk.injEq]
    refine ⟨(min_eq_left (not_lt.mp hb)).symm, ?_, trivial⟩
    rw [Nat.zero_shiftLeft, Nat.zero_or]

theorem argminop_loop_combine (lev q : Nat) (l r : List Int)
    (hl : l.length = 2 ^ lev) (hr : r.length = 2 ^ lev) :
    argminop ⟨minV l, 2 * q * 2 ^ lev + firstMinIdx l, lev⟩
             ⟨minV r, (2 * q + 1) * 2 ^ lev + firstMinIdx r, lev⟩
      = ⟨minV (l ++ r), q * 2 ^ (lev + 1) + firstMinIdx (l ++ r), lev + 1⟩ := by
  have hlne : l ≠ [] := List.ne_nil_of_length_pos (by rw [hl]; exact Nat.two_pow_pos lev)
  have hrne : r ≠ [] := List.ne_nil_of_length_pos (by rw [hr]; exact Nat.two_pow_pos lev)
  have hfr : firstMinIdx r < 2 ^ lev := hr ▸ firstMinIdx_lt_length r hrne
  rw [minV_append l r hlne hrne, firstMinIdx_append l r hlne hrne, argminop_eq]
  by_cases hb : minV r < minV l
  · rw [if_pos hb, if_pos hb]
    simp only [ArgminT.mk.injEq]
    refine ⟨(min_eq_right (le_of_lt hb)).symm, ?_, trivial⟩
    rw [Nat.shiftLeft_eq, one_mul,
        two_pow_lor_of_testBit (testBit_odd_mul_two_pow_add hfr), hl]
    ring
  · rw [if_neg hb, if_neg hb]
    simp only [ArgminT.mk.injEq]
    refine ⟨(min_eq_left (not_lt.mp hb)).symm, ?_, trivial⟩
    rw [Nat.zero_shiftLeft, Nat.zero_or]
    ring

theorem argminTable_spec (IN : Nat → Int) :
    ∀ lev idx, argminTable IN lev idx
      = ⟨minV (blk0 (fun j => IN (idx * 2 ^ lev + j)) lev),
         idx * 2 ^ lev + firstMinIdx (blk0 (fun j => IN (idx * 2 ^ lev + j)) lev),
         lev⟩ := by
  intro lev
  induction lev with
  | zero =>
    intro idx
    simp [argminTable, blk0, minV, firstMinIdx]
  | succ lev ih =>
    intro idx
    rw [show argminTable IN (lev + 1) idx
          = argminop (argminTable IN lev (2 * idx)) (argminTable IN lev (2 * idx + 1))
        from rfl,
        ih (2 * idx), ih (2 * idx + 1)]
    have hL : blk0 (fun j => IN (2 * idx * 2 ^ lev + j)) lev
        = blk0 (fun j => IN (idx * 2 ^ (lev + 1) + j)) lev := by
      apply congrArg (fun g => blk0 g lev)
      funext j
      apply congrArg IN
      ring
    have hR : blk0 (fun j => IN ((2 * idx + 1) * 2 ^ lev + j)) lev
        = blk0 (fun i => (fun j => IN (idx * 2 ^ (lev + 1) + j)) (2 ^ lev + i)) lev := by
      apply congrArg (fun g => blk0 g lev)
      funext j
      apply congrArg IN
      ring
    rw [hL, hR,
        argminop_loop_combine lev idx _ _ (blk0_length _ _) (blk0_length _ _),
        ← blk0_split]

theorem divconq_argmin_spec :
    ∀ (lev : Nat) (g : Nat → Int),
      divconqHelper argminop lev (fun i => ⟨g i, 0, 0⟩)
        = ⟨minV (blk0 g lev), firstMinIdx (blk0 g lev), lev⟩ := by
  have main : ∀ (lev : Nat) (g : Nat → Int),
      divconqHelper argminop (lev + 1) (fun i => ⟨g i, 0, 0⟩)
        = ⟨minV (blk0 g (lev + 1)), firstMinIdx (blk0 g (lev + 1)), lev + 1⟩ := by
    intro lev
    induction lev with
    | zero =>
      intro g
      show argminop ⟨g 0, 0, 0⟩ ⟨g 1, 0, 0⟩ = _
      have h01 : blk0 g 1 = [g 0, g 1] := rfl
      rw [h01, argminop_eq]
      dsimp only
      simp only [minV, firstMinIdx]
      by_cases hb : g 1 < g 0
      · rw [if_pos hb, if_pos hb]
        simp only [ArgminT.mk.injEq]
        refine ⟨(min_eq_right (le_of_lt hb)).symm, ?_, trivial⟩
        decide
      · rw [if_neg hb, if_neg hb]
        simp only [ArgminT.mk.injEq]
        refine ⟨(min_eq_left (not_lt.mp hb)).symm, ?_, trivial⟩
        decide
    | succ lev ih =>
      intro g
      show argminop
          (divconqHelper argminop (lev + 1) (fun i => ⟨g i, 0, 0⟩))
          (divconqHelper argminop (lev + 1) (fun i => ⟨g (2 ^ (lev + 1) + i), 0, 0⟩)) = _
      rw [ih g, ih (fun j => g (2 ^ (lev + 1) + j)),
          argminop_hop_combine (lev + 1) _ _ (blk0_length _ _) (blk0_length _ _),
          ← blk0_split]
  intro lev
  match lev with
  | 0 =>
    intro g
    simp [divconqHelper, blk0, minV, firstMinIdx]
  | lev + 1 => exact main lev

theorem minV_le_mem : ∀ (l : List Int) (x : Int), x ∈ l → minV l ≤ x := by
  intro l
  induction l with
  | nil => intro x hx; simp at hx
  | cons a t ih =>
    intro x hx
    cases t with
    | nil =>
      rw [List.mem_singleton] at hx
      subst hx
      exact le_refl _
    | cons b s =>
      rw [minV_cons a (b :: s) (by simp)]
      rcases List.mem_cons.mp hx with h | h
      · subst h
        exact min_le_left _ _
      · exact le_trans (min_le_right _ _) (ih x h)

theorem getD_firstMinIdx : ∀ l : List Int, l ≠ [] → l.getD (firstMinIdx l) 0 = minV l := by
  intro l
  induction l with
  | nil => intro h; exact absurd rfl h
  | cons a t ih =>
    intro _
    cases t with
    | nil => rfl
    | cons b s =>
      rw [firstMinIdx_cons a (b :: s) (by simp), minV_cons a (b :: s) (by simp)]
      by_cases hb : minV (b :: s) < a
      · rw [if_pos hb, List.getD_cons_succ, ih (by simp),
            min_eq_right (le_of_lt hb)]
      · rw [if_neg hb, List.getD_cons_zero, min_eq_left (not_lt.mp hb)]

theorem minV_lt_before : ∀ (l : List Int) (j : Nat), j < firstMinIdx l →
    minV l < l.getD j 0 := by
  intro l
  induction l with
  | nil => intro j hj; simp [firstMinIdx] at hj
  | cons a t ih =>
    intro j hj
    cases t with
    | nil => simp [firstMinIdx] at hj
    | cons b s =>
      rw [firstMinIdx_cons a (b :: s) (by simp)] at hj
      by_cases hb : minV (b :: s) < a
      · rw [if_pos hb] at hj
        rw [minV_cons a (b :: s) (by simp), min_eq_right (le_of_lt hb)]
        cases j with
        | zero => simpa [List.getD_cons_zero] using hb
        | succ j' =>
          rw [List.getD_cons_succ]
          exact ih j' (by omega)
      · rw [if_neg hb] at hj
        omega

theorem blk0_getD (g : Nat → Int) (lev j : Nat) (h : j < 2 ^ lev) :
    (blk0 g lev).getD j 0 = g j := by
  have hl : j < ((List.range (2 ^ lev)).map g).length := by simp [h]
  rw [blk0, List.getD_eq_getElem?_getD, List.getElem?_eq_getElem hl]
  simp

theorem log2_16 : log2 16 = 4 := by
  have h2 : log2 2 = 1 := by rw [log2]; norm_num
  have h4 : log2 4 = 2 := by rw [log2]; norm_num [h2]
  have h8 : log2 8 = 3 := by rw [log2]; norm_num [h4]
  rw [log2]; norm_num [h8]

theorem clog2_LIST_LENGTH : clog2 LIST_LENGTH = 4 := by
  show clog2 16 = 4
  rw [clog2, log2_16]
  norm_num [Nat.shiftLeft_eq]

/-- C2: the staged level-by-level table (`argmin_loop_synth`) and the
divide-and-conquer realization (`argmin_hop_synth`, `divconq` over
`argminop` on `{value, 0, 0}` leaf entries) return the same `(value, index)`
pair, and that pair is what a linear scan of the 16-element array for the
minimum value and its first index produces: the index is below 16, the value
is the element stored there, no element is smaller, and every element at a
smaller index is strictly larger.  Quantifying over every 16-element integer
array covers in particular the seed-42 normal-distribution array of the
test. -/
theorem argmin_realizations_correct :
    ∀ IN : Nat → Int,
      argmin_loop_synth IN = argmin_hop_synth IN ∧
      (argmin_loop_synth IN).2 < 16 ∧
      IN (argmin_loop_synth IN).2 = (argmin_loop_synth IN).1 ∧
      (∀ i, i < 16 → (argmin_loop_synth IN).1 ≤ IN i) ∧
      (∀ j, j < (argmin_loop_synth IN).2 → (argmin_loop_synth IN).1 < IN j) := by
  intro IN
  have h16 : (2 : Nat) ^ 4 = 16 := by norm_num
  have hIN : (fun j => IN (0 * 2 ^ 4 + j)) = IN := funext fun j => by norm_num
  have hloop : argmin_loop_synth IN = (minV (blk0 IN 4), firstMinIdx (blk0 IN 4)) := by
    unfold argmin_loop_synth
    rw [clog2_LIST_LENGTH, argminTable_spec IN 4 0, hIN]
    simp
  have hhop : argmin_hop_synth IN = (minV (blk0 IN 4), firstMinIdx (blk0 IN 4)) := by
    unfold argmin_hop_synth
    rw [clog2_LIST_LENGTH, divconq_argmin_spec 4 IN]
  have hne : blk0 IN 4 ≠ [] := blk0_ne_nil IN 4
  have hkbound : firstMinIdx (blk0 IN 4) < 16 := by
    have := firstMinIdx_lt_length (blk0 IN 4) hne
    rwa [blk0_length, h16] at this
  refine ⟨hloop.trans hhop.symm, ?_, ?_, ?_, ?_⟩
  · rw [hloop]
    exact hkbound
  · rw [hloop]
    show IN (firstMinIdx (blk0 IN 4)) = minV (blk0 IN 4)
    rw [← blk0_getD IN 4 _ (h16 ▸ hkbound), getD_firstMinIdx _ hne]
  · intro i hi
    rw [hloop]
    show minV (blk0 IN 4) ≤ IN i
    refine minV_le_mem _ _ ?_
    rw [blk0]
    exact List.mem_map.mpr ⟨i, List.mem_range.mpr (h16 ▸ hi), rfl⟩
  · intro j hj
    rw [hloop]
    rw [hloop] at hj
    show minV (blk0 IN 4) < IN j
    have := minV_lt_before (blk0 IN 4) j hj
    rwa [blk0_getD IN 4 j (by have := hkbound; omega)] at this

/-- Witness for C2 at the constant array 7: the minimum bounds element 5. -/
theorem argmin_realizations_correct_witness :
    5 < 16 ∧ (argmin_loop_synth (fun _ => (7 : Int))).1 ≤ (fun _ : Nat => (7 : Int)) 5 :=
  ⟨by decide, (argmin_realizations_correct (fun _ => 7)).2.2.2.1 5 (by decide)⟩

end HOPS
